import Mathlib

/-!
Verification of the dagit asset-graph core (Utils.tsx, AssetGraphExplorer,
PartitionStatus): graph building, cycle detection, live-data merging,
topology queries and the partition span compressor, shallowly embedded in
Lean with proofs of the specification's claims.
-/

/-! ## GraphId codec (Utils.tsx, `toGraphId`)

`toGraphId = (key) => JSON.stringify(key.path)`.  We model an asset key as
its path (a list of strings) and implement JSON.stringify for an array of
strings, including JSON string escaping. -/

abbrev GraphId := String

def hexDigit (n : Nat) : Char :=
  Char.ofNat (if n < 10 then 48 + n else 87 + n)

def jsEscapeChar (c : Char) : String :=
  if c = '"' then "\\\""
  else if c = '\\' then "\\\\"
  else if c = '\n' then "\\n"
  else if c = '\t' then "\\t"
  else if c = '\r' then "\\r"
  else if c = Char.ofNat 8 then "\\b"
  else if c = Char.ofNat 12 then "\\f"
  else if c.toNat < 32 then
    "\\u00" ++ String.singleton (hexDigit (c.toNat / 16)) ++ String.singleton (hexDigit (c.toNat % 16))
  else String.singleton c

def jsonEncodeString (s : String) : String :=
  "\"" ++ String.join (s.data.map jsEscapeChar) ++ "\""

def toGraphId (path : List String) : GraphId :=
  "[" ++ String.intercalate "," (path.map jsonEncodeString) ++ "]"

/-! ## Data model (Utils.tsx)

Association lists keyed by `GraphId` model the JS objects used as maps:
lookup finds the first (and in JS, only) binding; update replaces an
existing binding in place or appends a new one (JS property insertion
order). -/

def lookupA {α : Type} : List (GraphId × α) → GraphId → Option α
  | [], _ => none
  | (k, v) :: t, key => if k = key then some v else lookupA t key

def setA {α : Type} : List (GraphId × α) → GraphId → α → List (GraphId × α)
  | [], key, v => [(key, v)]
  | (k, w) :: t, key, v => if k = key then (key, v) :: t else (k, w) :: setA t key v

structure AssetNodeDef where
  assetKey : List String
  dependencyKeys : List (List String)
  dependedByKeys : List (List String)
  opNames : List String
  isObservable : Bool
deriving DecidableEq

structure GraphNode where
  id : GraphId
  assetKey : List String
  definition : AssetNodeDef
deriving DecidableEq

structure GraphData where
  nodes : List (GraphId × GraphNode)
  downstream : List (GraphId × List GraphId)
  upstream : List (GraphId × List GraphId)
deriving DecidableEq

/-- `graph.downstream[k] || {}` / `graph.upstream[k] || {}`: the recorded
edge-target set for a key, empty when the key is absent. -/
def lookupD (m : List (GraphId × List GraphId)) (k : GraphId) : List GraphId :=
  (lookupA m k).getD []

/-- `graph.nodes[k]`: `none` models a JS `undefined` lookup. -/
def lookupNode (g : GraphData) (k : GraphId) : Option GraphNode :=
  lookupA g.nodes k

/-- `{...(old || {}), [v]: true}`: JS object spread plus property set.  For
an existing key the position is kept; a new key is appended. -/
def insertKey (l : List GraphId) (v : GraphId) : List GraphId :=
  if v ∈ l then l else l ++ [v]

/-! ## Graph builder (Utils.tsx, `buildGraphData`) -/

def addEdge (data : GraphData) (upstreamGraphId downstreamGraphId : GraphId) : GraphData :=
  if upstreamGraphId = downstreamGraphId then
    -- Skip add edges for self-dependencies
    data
  else
    { data with
      downstream := setA data.downstream upstreamGraphId
        (insertKey (lookupD data.downstream upstreamGraphId) downstreamGraphId)
      upstream := setA data.upstream downstreamGraphId
        (insertKey (lookupD data.upstream downstreamGraphId) upstreamGraphId) }

def processAssetNode (data : GraphData) (definition : AssetNodeDef) : GraphData :=
  let id := toGraphId definition.assetKey
  let d1 := definition.dependencyKeys.foldl (fun acc key => addEdge acc (toGraphId key) id) data
  let d2 := definition.dependedByKeys.foldl (fun acc key => addEdge acc id (toGraphId key)) d1
  { d2 with nodes := setA d2.nodes id ⟨id, definition.assetKey, definition⟩ }

def buildGraphData (assetNodes : List AssetNodeDef) : GraphData :=
  assetNodes.foldl processAssetNode ⟨[], [], []⟩

/-! ## JS `Set` iteration (keep-first deduplication, insertion order) -/

def dedupKeepFirstAux (seen : List String) : List String → List String
  | [] => []
  | a :: t => if a ∈ seen then dedupKeepFirstAux seen t else a :: dedupKeepFirstAux (a :: seen) t

def dedupKeepFirst (l : List String) : List String :=
  dedupKeepFirstAux [] l

/-! ## Cycle detector (Utils.tsx, `graphHasCycles`)

The JS `search` mutates its unvisited pool (`nodes.delete(node)`); the pool
is threaded explicitly.  The subtype on the returned pool records that the
pool only shrinks (and shrinks strictly when the first work item is fresh),
which gives termination for the outer loop. -/

def downstreamKeys (g : GraphData) (n : GraphId) : List GraphId :=
  lookupD g.downstream n

def searchMany (g : GraphData) :
    (pool : List GraphId) → (stack : List GraphId) → (ns : List GraphId) →
    Bool × { p : List GraphId // p.length ≤ pool.length ∧
      ∀ n ns0, ns = n :: ns0 → n ∉ stack → n ∈ pool → p.length < pool.length }
  | pool, _, [] => (false, ⟨pool, Nat.le_refl _, fun _ _ h => by simp at h⟩)
  | pool, stack, n :: ns =>
    if hst : n ∈ stack then
      (true, ⟨pool, Nat.le_refl _, fun m _ hm hmst _ => by
        cases hm; exact absurd hst hmst⟩)
    else if hp : n ∈ pool then
      have hlt : (pool.erase n).length < pool.length := by
        rw [List.length_erase_of_mem hp]
        exact Nat.sub_lt (List.length_pos.mpr (List.ne_nil_of_mem hp)) Nat.one_pos
      match searchMany g (pool.erase n) (stack ++ [n]) (downstreamKeys g n) with
      | (true, p) => (true, ⟨p.1, Nat.le_of_lt (Nat.lt_of_le_of_lt p.2.1 hlt),
          fun _ _ _ _ _ => Nat.lt_of_le_of_lt p.2.1 hlt⟩)
      | (false, p) =>
        match searchMany g p.1 stack ns with
        | (b, q) => (b, ⟨q.1,
            Nat.le_of_lt (Nat.lt_of_le_of_lt (Nat.le_trans q.2.1 p.2.1) hlt),
            fun _ _ _ _ _ => Nat.lt_of_le_of_lt (Nat.le_trans q.2.1 p.2.1) hlt⟩)
    else
      match searchMany g pool stack ns with
      | (b, q) => (b, ⟨q.1, q.2.1, fun m _ hm _ hmp => by
          cases hm; exact absurd hmp hp⟩)
termination_by pool _ ns => (pool.length, ns.length)
decreasing_by
  all_goals simp_wf
  · exact Prod.Lex.left _ _ hlt
  · exact Prod.Lex.left _ _ (Nat.lt_of_le_of_lt p.2.1 hlt)
  · exact Prod.Lex.right _ (Nat.lt_succ_self _)

def hasCyclesLoop (g : GraphData) : (pool : List GraphId) → Bool
  | [] => false
  | p :: ps =>
    match searchMany g (p :: ps) [] [p] with
    | (true, _) => true
    | (false, rest) => hasCyclesLoop g rest.1
termination_by pool => pool.length
decreasing_by
  simp_wf
  exact rest.2.2 p [] rfl (by simp) (List.mem_cons_self p ps)

def graphHasCycles (graphData : GraphData) : Bool :=
  hasCyclesLoop graphData (dedupKeepFirst (graphData.nodes.map (·.1)))

/-- A raw downstream-index edge, as walked by `graphHasCycles`. -/
def edgeRel (g : GraphData) (u v : GraphId) : Prop :=
  v ∈ lookupD g.downstream u

/-! ## Topology query (AssetGraphExplorer, `graphDirectionOf` / `opsInRange`)

`graphDirectionOf` is an explicit-stack search with no visited set; on
cyclic inputs its `while` loop need not terminate, so it is embedded with a
fuel parameter (`none` = the loop has not finished within `fuel`
iterations).  The JS array is used as a stack at its tail end:
`stack.pop()` removes the last element and `stack.push(...downstream)`
appends. -/

inductive Direction where
  | downstream
  | upstream
deriving DecidableEq

/-- `[...Object.keys(graph.downstream[node.id] || {})].map((n) => graph.nodes[n]).filter(Boolean)` -/
def succs (g : GraphData) (n : GraphNode) : List GraphNode :=
  (lookupD g.downstream n.id).filterMap (lookupNode g)

def graphDirectionOfAux (g : GraphData) (toId : GraphId) : Nat → List GraphNode → Option Direction
  | 0, _ => none
  | _ + 1, [] => some Direction.upstream
  | fuel + 1, s :: ss =>
    let node := (s :: ss).getLast (List.cons_ne_nil s ss)
    let ds := succs g node
    if ds.any (fun d => d.id = toId) then some Direction.downstream
    else graphDirectionOfAux g toId fuel ((s :: ss).dropLast ++ ds)

def graphDirectionOf (g : GraphData) (fromNode toNode : GraphNode) (fuel : Nat) : Option Direction :=
  graphDirectionOfAux g toNode.id fuel [fromNode]

/-- `graphDirectionOf` returns `r` (for some amount of fuel). -/
def GDReturns (g : GraphData) (fromNode toNode : GraphNode) (r : Direction) : Prop :=
  ∃ fuel, graphDirectionOf g fromNode toNode fuel = some r

/-- One traversal step of the search: `v` is a downstream neighbor of `u`
that is present in the node map. -/
def stepR (g : GraphData) (u v : GraphNode) : Prop :=
  v ∈ succs g u

/-- The search starting at `u` can find the target: some node reachable
from `u` (through nodes present in the node map) has a present downstream
neighbor whose id is `toId`. -/
def FindsTarget (g : GraphData) (toId : GraphId) (u : GraphNode) : Prop :=
  ∃ w, Relation.ReflTransGen (stepR g) u w ∧ ∃ d ∈ succs g w, d.id = toId

/-- The ids of the nodes stored in the node map (used for the termination
measure of `opsInRangeRec`). -/
def nodeIdsSet (g : GraphData) : Finset String :=
  (g.nodes.map (fun p => p.2.id)).toFinset

/-- The recursive body of `opsInRange` (every call after the direction of
the outermost call has been determined, i.e. the JS function specialised to
`seen.length > 0` plus the outermost downstream walk itself).  Recursively
walks downstream neighbors of `f` not in `seen`; a branch that reaches a
node with the target's id contributes `f`'s op names followed by the
branch's result; the result is deduplicated keeping first occurrences
(lodash `uniq`). -/
def opsInRangeRec (g : GraphData) (toNode : GraphNode) (f : GraphNode) (seen : List GraphId) : List String :=
  if f.id = toNode.id then toNode.definition.opNames
  else
    dedupKeepFirst (List.flatten ((succs g f).attach.map (fun n =>
      if hseen : n.1.id ∈ seen then []
      else if opsInRangeRec g toNode n.1 (seen ++ [f.id]) = [] then []
      else f.definition.opNames ++ opsInRangeRec g toNode n.1 (seen ++ [f.id]))))
termination_by
  2 * ((nodeIdsSet g) \ seen.toFinset).card +
    2 * (if f.id ∈ nodeIdsSet g then 0 else 1) +
    (if f.id ∈ seen then 1 else 0)
decreasing_by
  all_goals {
    simp_wf
    have hmemA : ∀ (l : List (GraphId × GraphNode)) (k : GraphId) (v : GraphNode),
        lookupA l k = some v → v ∈ l.map Prod.snd := by
      intro l
      induction l with
      | nil => intro k v h; simp [lookupA] at h
      | cons hd tl ih =>
        intro k v h
        simp only [lookupA] at h
        by_cases hk : hd.1 = k
        · simp [hk] at h
          simp [← h]
        · simp [hk] at h
          simp [ih k v h]
    have hn := n.2
    have hnN : n.1.id ∈ nodeIdsSet g := by
      simp only [succs, List.mem_filterMap] at hn
      obtain ⟨k, _, hlk⟩ := hn
      have := hmemA g.nodes k n.1 hlk
      simp only [nodeIdsSet, List.mem_toFinset, List.mem_map]
      simp only [List.mem_map] at this
      obtain ⟨p, hp, hpe⟩ := this
      exact ⟨p, hp, by rw [hpe]⟩
    have hU : seen.toFinset ∪ ({f.id} : Finset String) = insert f.id seen.toFinset := by
      rw [Finset.insert_eq, Finset.union_comm]
    rw [hU]
    by_cases hfs : f.id ∈ seen
    · -- seen is unchanged as a set; the last summand drops from 1 to 0
      have hnid : ¬(n.1.id ∈ seen ∨ n.1.id = f.id) := by
        rintro (h | h)
        · exact hseen h
        · exact hseen (h ▸ hfs)
      rw [Finset.insert_eq_self.mpr (List.mem_toFinset.mpr hfs)]
      rw [if_pos hnN, if_neg hnid, if_pos hfs]
      split_ifs <;> omega
    · by_cases hfN : f.id ∈ nodeIdsSet g
      · -- f.id leaves the unvisited node set: first summand strictly drops
        have hcard : ((nodeIdsSet g) \ insert f.id seen.toFinset).card <
            ((nodeIdsSet g) \ seen.toFinset).card := by
          apply Finset.card_lt_card
          constructor
          · intro x hx
            simp only [Finset.mem_sdiff, Finset.mem_insert] at hx ⊢
            exact ⟨hx.1, fun h => hx.2 (Or.inr h)⟩
          · intro hsub
            have := hsub (Finset.mem_sdiff.mpr ⟨hfN, by simp [hfs]⟩)
            simp [Finset.mem_sdiff] at this
        rw [if_pos hnN, if_pos hfN, if_neg hfs]
        split_ifs <;> omega
      · -- f.id was never in the node set: second summand drops from 1 to 0
        have hcard : ((nodeIdsSet g) \ insert f.id seen.toFinset).card =
            ((nodeIdsSet g) \ seen.toFinset).card := by
          congr 1
          ext x
          simp only [Finset.mem_sdiff, Finset.mem_insert]
          constructor
          · intro hx; exact ⟨hx.1, fun h => hx.2 (Or.inr h)⟩
          · intro hx
            refine ⟨hx.1, fun h => ?_⟩
            rcases h with h | h
            · exact hfN (h ▸ hx.1)
            · exact hx.2 h
        rw [if_pos hnN, if_neg hfN, if_neg hfs, hcard]
        split_ifs <;> omega
  }

/-- `opsInRange` as called from the UI (`seen = []`): handles the null
`from`, the `from = to` shortcut and the one-time direction normalisation
(swapping `from` and `to` when the direction comes out `'upstream'`).
`fuel` feeds the embedded `graphDirectionOf` search; `none` means that
search did not finish. -/
def opsInRange (g : GraphData) (fromNode : Option GraphNode) (toNode : GraphNode) (fuel : Nat) :
    Option (List String) :=
  match fromNode with
  | none => some []
  | some f =>
    if f.id = toNode.id then some toNode.definition.opNames
    else
      match graphDirectionOfAux g toNode.id fuel [f] with
      | none => none
      | some Direction.downstream => some (opsInRangeRec g toNode f [])
      | some Direction.upstream => some (opsInRangeRec g f toNode [])

/-- `opsInRange` finishes (for some amount of fuel for the embedded
direction search). -/
def OpsInRangeTerminates (g : GraphData) (fromNode : Option GraphNode) (toNode : GraphNode) : Prop :=
  ∃ fuel, (opsInRange g fromNode toNode fuel).isSome

/-- Weight of the explicit search stack under a rank function: used to
bound the number of iterations of `graphDirectionOf` on ranked (acyclic)
graphs. -/
def stackWeight (B : Nat) (rk : GraphId → Nat) (stack : List GraphNode) : Nat :=
  (stack.map (fun n => (B + 1) ^ (rk n.id))).sum

/-- An upper bound for the size of any downstream adjacency list of `g`. -/
def maxDown (g : GraphData) : Nat :=
  (g.downstream.map (fun p => p.2.length)).foldl Nat.max 0

/-! ## Live data merger (Utils.tsx, `buildLiveDataForNode`)

`RunStatus` is the GraphQL run-status enumeration from
`types/globalTypes` (not part of the sources here); its members are taken
from the statuses named by the spec's mapping (canceled, canceling,
failure, started, success, queued, and the remaining "anything else"
members). -/

inductive RunStatus where
  | QUEUED
  | NOT_STARTED
  | MANAGED
  | STARTING
  | STARTED
  | SUCCESS
  | FAILURE
  | CANCELING
  | CANCELED
deriving DecidableEq

structure MaterializationRec where
  runId : String
deriving DecidableEq

structure ObservationRec where
  runId : String
deriving DecidableEq

structure LatestRunRec where
  id : String
  status : RunStatus
deriving DecidableEq

structure AssetLatestInfoRec where
  latestRun : Option LatestRunRec
  unstartedRunIds : List String
  inProgressRunIds : List String
deriving DecidableEq

structure AssetLiveNodeRec where
  opNames : List String
  assetMaterializations : List MaterializationRec
  assetObservations : List ObservationRec
  currentLogicalVersion : Option String
  projectedLogicalVersion : Option String
  freshnessInfo : Option Unit
  freshnessPolicy : Option Unit
deriving DecidableEq

/-- `LiveDataForNode`.  The TS interface declares `stepKey: string`, but the
value actually stored is `assetNode.opNames[0]`, which is `undefined` when
the list is empty; the field is therefore modelled as `Option String`
(`none` = JS `undefined`). -/
structure LiveDataForNode where
  stepKey : Option String
  unstartedRunIds : List String
  inProgressRunIds : List String
  runWhichFailedToMaterialize : Option LatestRunRec
  lastMaterialization : Option MaterializationRec
  lastMaterializationRunStatus : Option RunStatus
  freshnessPolicy : Option Unit
  freshnessInfo : Option Unit
  lastObservation : Option ObservationRec
  currentLogicalVersion : Option String
  projectedLogicalVersion : Option String
deriving DecidableEq

def buildLiveDataForNode (assetNode : AssetLiveNodeRec) (assetLatestInfo : Option AssetLatestInfoRec) :
    LiveDataForNode :=
  let lastMaterialization := assetNode.assetMaterializations.head?
  let lastObservation := assetNode.assetObservations.head?
  let latestRunForAsset := assetLatestInfo.bind (fun i => i.latestRun)
  let runWhichFailedToMaterialize :=
    match latestRunForAsset with
    | none => none
    | some run =>
      if run.status = RunStatus.FAILURE then
        match lastMaterialization with
        | none => some run
        | some m => if m.runId ≠ run.id then some run else none
      else none
  { lastMaterialization := lastMaterialization
    lastMaterializationRunStatus :=
      match latestRunForAsset, lastMaterialization with
      | some run, some m => if m.runId = run.id then some run.status else none
      | _, _ => none
    lastObservation := lastObservation
    currentLogicalVersion := assetNode.currentLogicalVersion
    projectedLogicalVersion := assetNode.projectedLogicalVersion
    stepKey := assetNode.opNames.head?
    freshnessInfo := assetNode.freshnessInfo
    freshnessPolicy := assetNode.freshnessPolicy
    inProgressRunIds := (assetLatestInfo.map (fun i => i.inProgressRunIds)).getD []
    unstartedRunIds := (assetLatestInfo.map (fun i => i.unstartedRunIds)).getD []
    runWhichFailedToMaterialize := runWhichFailedToMaterialize }

/-! ## Span compressor (PartitionStatus, `_partitionsToSpans`) -/

inductive PartitionState where
  | MISSING
  | SUCCESS
  | SUCCESS_MISSING
  | FAILURE
  | FAILURE_MISSING
  | QUEUED
  | STARTED
deriving DecidableEq

def runStatusToPartitionState (runStatus : Option RunStatus) : PartitionState :=
  match runStatus with
  | some RunStatus.CANCELED => PartitionState.FAILURE
  | some RunStatus.CANCELING => PartitionState.FAILURE
  | some RunStatus.FAILURE => PartitionState.FAILURE
  | some RunStatus.STARTED => PartitionState.STARTED
  | some RunStatus.SUCCESS => PartitionState.SUCCESS
  | some RunStatus.QUEUED => PartitionState.QUEUED
  | _ => PartitionState.MISSING

structure Span where
  startIdx : Nat
  endIdx : Nat
  status : PartitionState
deriving DecidableEq

/-- One step of the `_partitionsToSpans` loop.  The accumulator holds the
spans in reverse order, so the JS `spans[spans.length - 1]` is the head. -/
def pushSpan (acc : List Span) (ii : Nat) (status : PartitionState) : List Span :=
  match acc with
  | [] => [⟨ii, ii, status⟩]
  | a :: t => if a.status = status then ⟨a.startIdx, ii, status⟩ :: t else ⟨ii, ii, status⟩ :: a :: t

def partitionsToSpansGo (keyStatus : String → Option PartitionState) :
    List String → Nat → List Span → List Span
  | [], _, acc => acc.reverse
  | k :: ks, ii, acc =>
    partitionsToSpansGo keyStatus ks (ii + 1) (pushSpan acc ii ((keyStatus k).getD PartitionState.MISSING))

/-- `_partitionsToSpans(keys, keyStatus)`: left-to-right scan, extending the
current span while the status is unchanged (`keys[ii] in keyStatus ?
keyStatus[keys[ii]] : MISSING`). -/
def partitionsToSpans (keys : List String) (keyStatus : String → Option PartitionState) : List Span :=
  partitionsToSpansGo keyStatus keys 0 []

/-- `partitionNames.map((name, idx) => [name, partitionStateForKey(name, idx)])`. -/
def entriesOf (f : String → Nat → PartitionState) : List String → Nat → List (String × PartitionState)
  | [], _ => []
  | k :: ks, i => (k, f k i) :: entriesOf f ks (i + 1)

/-- `Object.fromEntries` lookup semantics: a key is present iff some entry
carries it, and a later entry overwrites an earlier one (last write wins). -/
def fromEntriesLookup (entries : List (String × PartitionState)) (k : String) : Option PartitionState :=
  ((entries.filter (fun p => p.1 = k)).getLast?).map (fun p => p.2)

/-- The span list rendered by `PartitionStatus` when `splitPartitions` is
off: `_partitionsToSpans(partitionNames,
Object.fromEntries(partitionNames.map((name, idx) => [name,
partitionStateForKey(name, idx)])))`. -/
def toSpans (partitionNames : List String) (partitionStateForKey : String → Nat → PartitionState) :
    List Span :=
  partitionsToSpans partitionNames (fromEntriesLookup (entriesOf partitionStateForKey partitionNames 0))

/-- Spans in `l` tile the index interval `[n, m)` in order: each span
starts where the previous ended (+1) and is nonempty. -/
def covers : List Span → Nat → Nat → Prop
  | [], n, m => n = m
  | s :: rest, n, m => s.startIdx = n ∧ s.startIdx ≤ s.endIdx ∧ covers rest (s.endIdx + 1) m

/-! ## Interactive range selection (PartitionStatus, `setSelectionRange`) -/

/-- `getRangeSelection(start, end)`: the partitions between the two
endpoints, order-independent (`slice(min(startIdx, endIdx), max(startIdx,
endIdx) + 1)`). -/
def getRangeSelection (partitionNames : List String) (start stop : String) : List String :=
  let startIdx := partitionNames.indexOf start
  let endIdx := partitionNames.indexOf stop
  (partitionNames.drop (min startIdx endIdx)).take (max startIdx endIdx + 1 - min startIdx endIdx)

/-- The union branch of `setSelectionRange`: `newSelected = new
Set(selected); currentSelection.forEach((name) => newSelected.add(name));
Array.from(newSelected)`. -/
def addRangeToSelection (selected currentSelection : List String) : List String :=
  dedupKeepFirst (selected ++ currentSelection)

/-- `setSelectionRange` (pointer-up): toggle off when the whole dragged
range is already selected, otherwise add the whole range. -/
def setSelectionRangeResult (partitionNames selected : List String) (start stop : String) :
    List String :=
  let currentSelection := getRangeSelection partitionNames start stop
  if currentSelection.all (fun name => selected.contains name) then
    selected.filter (fun x => ¬ currentSelection.contains x)
  else
    addRangeToSelection selected currentSelection

/-! ## Concrete instances used in witnesses and counterexamples -/

def mkDef (path : List String) (deps depBy : List (List String)) (ops : List String) : AssetNodeDef :=
  ⟨path, deps, depBy, ops, false⟩

def mkNode (path : List String) (ops : List String) : GraphNode :=
  ⟨toGraphId path, path, mkDef path [] [] ops⟩

def idA : GraphId := toGraphId ["A"]
def idB : GraphId := toGraphId ["B"]
def idC : GraphId := toGraphId ["C"]
def idD : GraphId := toGraphId ["D"]
def idX : GraphId := toGraphId ["X"]

def nodeA : GraphNode := mkNode ["A"] ["opA"]
def nodeB : GraphNode := mkNode ["B"] ["opB"]
def nodeC : GraphNode := mkNode ["C"] ["opC"]
def nodeD : GraphNode := mkNode ["D"] ["opD"]
def nodeX : GraphNode := mkNode ["X"] ["opX"]

/-- Two-node mutual dependency: edges A→B and B→A. -/
def mutualG : GraphData :=
  ⟨[(idA, nodeA), (idB, nodeB)],
   [(idA, [idB]), (idB, [idA])],
   [(idA, [idB]), (idB, [idA])]⟩

/-- Diamond: edges A→B, A→C, B→D, C→D. -/
def diamondG : GraphData :=
  ⟨[(idA, nodeA), (idB, nodeB), (idC, nodeC), (idD, nodeD)],
   [(idA, [idB, idC]), (idB, [idD]), (idC, [idD])],
   [(idB, [idA]), (idC, [idA]), (idD, [idB, idC])]⟩

/-- Linear chain: edges A→B, B→C, C→D. -/
def chainG : GraphData :=
  ⟨[(idA, nodeA), (idB, nodeB), (idC, nodeC), (idD, nodeD)],
   [(idA, [idB]), (idB, [idC]), (idC, [idD])],
   [(idB, [idA]), (idC, [idB]), (idD, [idC])]⟩

/-- A graph whose node map contains only A, while the downstream index has
an entry for the foreign id X (as `buildGraphData` produces when a loaded
asset declares a dependency on an asset outside the loaded set). -/
def foreignEdgeG : GraphData :=
  ⟨[(idA, nodeA)],
   [(idX, [idA])],
   [(idA, [idX])]⟩

def emptyG : GraphData := ⟨[], [], []⟩

def defP : AssetNodeDef := mkDef ["P"] [["Q"]] [["R"]] ["opP"]

def liveNodeNoOps : AssetLiveNodeRec :=
  ⟨[], [], [], none, none, none, none⟩

def liveNode0 : AssetLiveNodeRec :=
  ⟨["op0"], [], [], none, none, none, none⟩

def run0 : LatestRunRec := ⟨"r1", RunStatus.FAILURE⟩

def latestInfo0 : AssetLatestInfoRec := ⟨some run0, [], []⟩

def names4 : List String := ["p1", "p2", "p3", "p4"]

def statusF0 : String → Nat → PartitionState := fun _ i =>
  if i ≤ 1 then PartitionState.SUCCESS else PartitionState.MISSING

def statusF2 : String → Nat → PartitionState := fun _ i =>
  if i = 0 then PartitionState.SUCCESS else PartitionState.MISSING

/-- A rank function witnessing that `chainG` is acyclic. -/
def chainRank : GraphId → Nat := fun s =>
  if s = idA then 3 else if s = idB then 2 else if s = idC then 1 else 0

/-! # Theorems -/

/-! ## Association-list and deduplication helpers -/

theorem lookupA_setA_self {α : Type} (m : List (GraphId × α)) (k : GraphId) (v : α) :
    lookupA (setA m k v) k = some v := by
  induction m with
  | nil => simp [setA, lookupA]
  | cons hd tl ih =>
    by_cases h : hd.1 = k
    · simp [setA, h, lookupA]
    · cases hd
      simp only [setA, lookupA]
      simp_all [lookupA]

theorem lookupA_setA_ne {α : Type} (m : List (GraphId × α)) (k k2 : GraphId) (v : α)
    (h : k ≠ k2) : lookupA (setA m k v) k2 = lookupA m k2 := by
  induction m with
  | nil => simp [setA, lookupA, h]
  | cons hd tl ih =>
    by_cases hk : hd.1 = k
    · cases hd
      simp_all [setA, lookupA]
    · cases hd
      simp only [setA, lookupA] at *
      simp_all [lookupA]

theorem mem_insertKey (l : List GraphId) (a x : GraphId) :
    x ∈ insertKey l a ↔ x ∈ l ∨ x = a := by
  by_cases h : a ∈ l
  · simp only [insertKey, if_pos h]
    constructor
    · exact Or.inl
    · rintro (hx | rfl) <;> assumption
  · simp [insertKey, if_neg h]

theorem mem_dedupKeepFirstAux (x : String) :
    ∀ (l seen : List String), x ∈ dedupKeepFirstAux seen l ↔ x ∈ l ∧ x ∉ seen := by
  intro l
  induction l with
  | nil => intro seen; simp [dedupKeepFirstAux]
  | cons a t ih =>
    intro seen
    by_cases ha : a ∈ seen
    · rw [dedupKeepFirstAux, if_pos ha, ih]
      simp only [List.mem_cons]
      constructor
      · rintro ⟨hx, hs⟩; exact ⟨Or.inr hx, hs⟩
      · rintro ⟨rfl | hx, hs⟩
        · exact absurd ha hs
        · exact ⟨hx, hs⟩
    · rw [dedupKeepFirstAux, if_neg ha]
      simp only [List.mem_cons, ih]
      constructor
      · rintro (rfl | ⟨hx, hs⟩)
        · exact ⟨Or.inl rfl, ha⟩
        · refine ⟨Or.inr hx, fun hc => hs (Or.inr hc)⟩
      · rintro ⟨rfl | hx, hs⟩
        · exact Or.inl rfl
        · by_cases hxa : x = a
          · exact Or.inl hxa
          · exact Or.inr ⟨hx, fun hc => by
              rcases hc with hc | hc
              · exact hxa hc
              · exact hs hc⟩

theorem mem_dedupKeepFirst (l : List String) (x : String) :
    x ∈ dedupKeepFirst l ↔ x ∈ l := by
  rw [dedupKeepFirst, mem_dedupKeepFirstAux]
  simp

/-- Claim C4: `buildLiveDataForNode` does not throw on an asset with zero op
names, but contrary to the claim the `stepKey` it stores is JS `undefined`
(modelled `none`), not the empty string: `stepKey` is `assetNode.opNames[0]`
with no fallback, even though the `LiveDataForNode` interface declares
`stepKey: string` and `MISSING_LIVE_DATA` uses `''`. -/
theorem stepKey_undefined_on_empty_opNames :
    (buildLiveDataForNode liveNodeNoOps none).stepKey = none ∧
      (buildLiveDataForNode liveNodeNoOps none).stepKey ≠ some "" := by
  constructor <;> simp [buildLiveDataForNode, liveNodeNoOps]

/-- Claim C3: in `buildLiveDataForNode`, `runWhichFailedToMaterialize` is
exactly the latest run when that run exists with failure status and the
last materialization (if any) was not produced by it; and
`lastMaterializationRunStatus` is exactly the latest run's status when the
latest run exists and its id equals the last materialization's run id; the
two fields are never both set. -/
theorem buildLiveDataForNode_run_fields (node : AssetLiveNodeRec) (info : Option AssetLatestInfoRec) :
    (∀ run, (buildLiveDataForNode node info).runWhichFailedToMaterialize = some run ↔
      (info.bind (fun i => i.latestRun) = some run ∧ run.status = RunStatus.FAILURE ∧
        ∀ m, node.assetMaterializations.head? = some m → m.runId ≠ run.id)) ∧
    (∀ s, (buildLiveDataForNode node info).lastMaterializationRunStatus = some s ↔
      ∃ run m, info.bind (fun i => i.latestRun) = some run ∧
        node.assetMaterializations.head? = some m ∧ m.runId = run.id ∧ s = run.status) ∧
    ¬((buildLiveDataForNode node info).runWhichFailedToMaterialize ≠ none ∧
      (buildLiveDataForNode node info).lastMaterializationRunStatus ≠ none) := by
  rcases hlr : info.bind (fun i => i.latestRun) with _ | run
  · simp [buildLiveDataForNode, hlr]
  · rcases hm : node.assetMaterializations.head? with _ | m
    · by_cases hf : run.status = RunStatus.FAILURE
      · refine ⟨?_, ?_, ?_⟩
        · intro r
          simp [buildLiveDataForNode, hlr, hm, hf]
          rintro rfl
          exact hf
        · intro s
          simp [buildLiveDataForNode, hlr, hm]
        · simp [buildLiveDataForNode, hlr, hm, hf]
      · refine ⟨?_, ?_, ?_⟩
        · intro r
          simp only [buildLiveDataForNode, hlr, hm]
          simp [hf]
          rintro rfl
          exact fun h => absurd h hf
        · intro s
          simp [buildLiveDataForNode, hlr, hm]
        · simp [buildLiveDataForNode, hlr, hm, hf]
    · by_cases hid : m.runId = run.id
      · refine ⟨?_, ?_, ?_⟩
        · intro r
          simp [buildLiveDataForNode, hlr, hm, hid]
          rintro rfl h
          rfl
        · intro s
          simp [buildLiveDataForNode, hlr, hm, hid, eq_comm]
        · by_cases hf : run.status = RunStatus.FAILURE <;>
            simp [buildLiveDataForNode, hlr, hm, hid, hf]
      · by_cases hf : run.status = RunStatus.FAILURE
        · refine ⟨?_, ?_, ?_⟩
          · intro r
            simp [buildLiveDataForNode, hlr, hm, hf, hid]
            rintro rfl
            exact ⟨hf, hid⟩
          · intro s
            simp [buildLiveDataForNode, hlr, hm, hid]
          · simp [buildLiveDataForNode, hlr, hm, hf, hid]
        · refine ⟨?_, ?_, ?_⟩
          · intro r
            simp [buildLiveDataForNode, hlr, hm, hf, hid]
            rintro rfl
            exact fun h => absurd h hf
          · intro s
            simp [buildLiveDataForNode, hlr, hm, hid]
          · simp [buildLiveDataForNode, hlr, hm, hf, hid]

theorem buildLiveDataForNode_run_fields_witness :
    (buildLiveDataForNode liveNode0 (some latestInfo0)).runWhichFailedToMaterialize = some run0 :=
  ((buildLiveDataForNode_run_fields liveNode0 (some latestInfo0)).1 run0).mpr
    ⟨rfl, rfl, by simp [liveNode0]⟩

/-! ## Selection helpers (C8) -/

theorem nodup_dedupKeepFirstAux : ∀ (l seen : List String), (dedupKeepFirstAux seen l).Nodup := by
  intro l
  induction l with
  | nil => intro seen; simp [dedupKeepFirstAux]
  | cons a t ih =>
    intro seen
    by_cases ha : a ∈ seen
    · rw [dedupKeepFirstAux, if_pos ha]
      exact ih seen
    · rw [dedupKeepFirstAux, if_neg ha]
      refine List.nodup_cons.mpr ⟨?_, ih (a :: seen)⟩
      intro hmem
      exact ((mem_dedupKeepFirstAux a t (a :: seen)).mp hmem).2 (List.mem_cons_self a seen)

theorem dedupKeepFirstAux_nil_of_subset :
    ∀ (m seen : List String), (∀ x ∈ m, x ∈ seen) → dedupKeepFirstAux seen m = [] := by
  intro m
  induction m with
  | nil => intro seen _; rfl
  | cons a t ih =>
    intro seen h
    rw [dedupKeepFirstAux, if_pos (h a (List.mem_cons_self a t))]
    exact ih seen (fun x hx => h x (List.mem_cons_of_mem a hx))

theorem dedupKeepFirstAux_append_absorb :
    ∀ (l seen m : List String), l.Nodup → (∀ x ∈ l, x ∉ seen) →
      (∀ x ∈ m, x ∈ seen ∨ x ∈ l) → dedupKeepFirstAux seen (l ++ m) = l := by
  intro l
  induction l with
  | nil =>
    intro seen m _ _ hm
    refine dedupKeepFirstAux_nil_of_subset m seen (fun x hx => ?_)
    rcases hm x hx with h | h
    · exact h
    · simp at h
  | cons a t ih =>
    intro seen m hnd hl hm
    have ha : a ∉ seen := hl a (List.mem_cons_self a t)
    rw [List.cons_append, dedupKeepFirstAux, if_neg ha]
    have hnd' := List.nodup_cons.mp hnd
    rw [ih (a :: seen) m hnd'.2 ?_ ?_]
    · intro x hx
      simp only [List.mem_cons]
      rintro (rfl | hs)
      · exact hnd'.1 hx
      · exact hl x (List.mem_cons_of_mem a hx) hs
    · intro x hx
      rcases hm x hx with h | h
      · exact Or.inl (List.mem_cons_of_mem a h)
      · rcases List.mem_cons.mp h with rfl | h
        · exact Or.inl (List.mem_cons_self x seen)
        · exact Or.inr h

/-- Claim C8: pointer-up selection semantics.  The dragged interval is
independent of endpoint order; when the whole interval is already in the
selection the result is the selection minus exactly that interval; otherwise
the result is the union of the selection and the interval; and the add
(union) operation is idempotent. -/
theorem setSelectionRange_spec (names selected : List String) (start stop : String) :
    getRangeSelection names start stop = getRangeSelection names stop start ∧
    ((∀ x ∈ getRangeSelection names start stop, x ∈ selected) →
      ∀ x, x ∈ setSelectionRangeResult names selected start stop ↔
        x ∈ selected ∧ x ∉ getRangeSelection names start stop) ∧
    ((¬ ∀ x ∈ getRangeSelection names start stop, x ∈ selected) →
      ∀ x, x ∈ setSelectionRangeResult names selected start stop ↔
        x ∈ selected ∨ x ∈ getRangeSelection names start stop) ∧
    addRangeToSelection (addRangeToSelection selected (getRangeSelection names start stop))
        (getRangeSelection names start stop) =
      addRangeToSelection selected (getRangeSelection names start stop) := by
  refine ⟨?_, ?_, ?_, ?_⟩
  · simp [getRangeSelection, Nat.min_comm, Nat.max_comm]
  · intro hall x
    have hcond : (getRangeSelection names start stop).all (fun name => selected.contains name) = true := by
      simp only [List.all_eq_true]
      intro a ha
      simpa using hall a ha
    rw [setSelectionRangeResult]
    simp only [hcond, if_true]
    simp [List.mem_filter]
  · intro hnall x
    have hcond : ¬ ((getRangeSelection names start stop).all (fun name => selected.contains name) = true) := by
      simp only [List.all_eq_true]
      intro h
      exact hnall (fun a ha => by simpa using h a ha)
    simp only [setSelectionRangeResult, addRangeToSelection]
    rw [if_neg hcond, mem_dedupKeepFirst, List.mem_append]
  · simp only [addRangeToSelection, dedupKeepFirst]
    exact dedupKeepFirstAux_append_absorb
      (dedupKeepFirstAux [] (selected ++ getRangeSelection names start stop))
      [] (getRangeSelection names start stop)
      (nodup_dedupKeepFirstAux _ [])
      (by simp)
      (fun x hx => Or.inr ((mem_dedupKeepFirstAux x _ []).mpr
        ⟨List.mem_append.mpr (Or.inr hx), by simp⟩))

theorem setSelectionRange_spec_witness :
    "a" ∈ setSelectionRangeResult ["a", "b", "c"] ["a", "b"] "a" "b" ↔
      "a" ∈ ["a", "b"] ∧ "a" ∉ getRangeSelection ["a", "b", "c"] "a" "b" :=
  (setSelectionRange_spec ["a", "b", "c"] ["a", "b"] "a" "b").2.1 (by decide) "a"

/-! ## Graph builder lemmas (C1) -/

theorem lookupD_setA_self (m : List (GraphId × List GraphId)) (k : GraphId) (v : List GraphId) :
    lookupD (setA m k v) k = v := by
  simp [lookupD, lookupA_setA_self]

theorem lookupD_setA_ne (m : List (GraphId × List GraphId)) (k k2 : GraphId) (v : List GraphId)
    (h : k ≠ k2) : lookupD (setA m k v) k2 = lookupD m k2 := by
  simp [lookupD, lookupA_setA_ne m k k2 v h]

theorem addEdge_mono_down (d : GraphData) (u v k x : GraphId)
    (hx : x ∈ lookupD d.downstream k) : x ∈ lookupD (addEdge d u v).downstream k := by
  by_cases huv : u = v
  · simpa [addEdge, huv] using hx
  · simp only [addEdge, if_neg huv]
    by_cases hk : u = k
    · subst hk
      rw [lookupD_setA_self]
      exact (mem_insertKey _ v x).mpr (Or.inl hx)
    · rw [lookupD_setA_ne _ _ _ _ hk]
      exact hx

theorem addEdge_mono_up (d : GraphData) (u v k x : GraphId)
    (hx : x ∈ lookupD d.upstream k) : x ∈ lookupD (addEdge d u v).upstream k := by
  by_cases huv : u = v
  · simpa [addEdge, huv] using hx
  · simp only [addEdge, if_neg huv]
    by_cases hk : v = k
    · subst hk
      rw [lookupD_setA_self]
      exact (mem_insertKey _ u x).mpr (Or.inl hx)
    · rw [lookupD_setA_ne _ _ _ _ hk]
      exact hx

theorem addEdge_adds (d : GraphData) (u v : GraphId) (huv : u ≠ v) :
    v ∈ lookupD (addEdge d u v).downstream u ∧ u ∈ lookupD (addEdge d u v).upstream v := by
  simp only [addEdge, if_neg huv]
  constructor
  · rw [lookupD_setA_self]
    exact (mem_insertKey _ v v).mpr (Or.inr rfl)
  · rw [lookupD_setA_self]
    exact (mem_insertKey _ u u).mpr (Or.inr rfl)

theorem foldl_addEdge_mono_down {β : Type} (step : GraphData → β → GraphData)
    (hstep : ∀ d b k x, x ∈ lookupD d.downstream k → x ∈ lookupD (step d b).downstream k) :
    ∀ (l : List β) (d : GraphData) (k x : GraphId),
      x ∈ lookupD d.downstream k → x ∈ lookupD (l.foldl step d).downstream k := by
  intro l
  induction l with
  | nil => intro d k x hx; exact hx
  | cons b t ih => intro d k x hx; exact ih (step d b) k x (hstep d b k x hx)

theorem foldl_addEdge_mono_up {β : Type} (step : GraphData → β → GraphData)
    (hstep : ∀ d b k x, x ∈ lookupD d.upstream k → x ∈ lookupD (step d b).upstream k) :
    ∀ (l : List β) (d : GraphData) (k x : GraphId),
      x ∈ lookupD d.upstream k → x ∈ lookupD (l.foldl step d).upstream k := by
  intro l
  induction l with
  | nil => intro d k x hx; exact hx
  | cons b t ih => intro d k x hx; exact ih (step d b) k x (hstep d b k x hx)

theorem processAssetNode_mono_down (data : GraphData) (definition : AssetNodeDef) (k x : GraphId)
    (hx : x ∈ lookupD data.downstream k) :
    x ∈ lookupD (processAssetNode data definition).downstream k := by
  rw [processAssetNode]
  refine foldl_addEdge_mono_down _ ?_ _ _ _ _
    (foldl_addEdge_mono_down _ ?_ _ _ _ _ hx)
  · intro d b k2 x2 h; exact addEdge_mono_down d _ _ k2 x2 h
  · intro d b k2 x2 h; exact addEdge_mono_down d _ _ k2 x2 h

theorem processAssetNode_mono_up (data : GraphData) (definition : AssetNodeDef) (k x : GraphId)
    (hx : x ∈ lookupD data.upstream k) :
    x ∈ lookupD (processAssetNode data definition).upstream k := by
  rw [processAssetNode]
  refine foldl_addEdge_mono_up _ ?_ _ _ _ _
    (foldl_addEdge_mono_up _ ?_ _ _ _ _ hx)
  · intro d b k2 x2 h; exact addEdge_mono_up d _ _ k2 x2 h
  · intro d b k2 x2 h; exact addEdge_mono_up d _ _ k2 x2 h

theorem foldl_process_mono_down :
    ∀ (l : List AssetNodeDef) (d : GraphData) (k x : GraphId),
      x ∈ lookupD d.downstream k → x ∈ lookupD (l.foldl processAssetNode d).downstream k := by
  intro l
  induction l with
  | nil => intro d k x hx; exact hx
  | cons b t ih => intro d k x hx; exact ih _ k x (processAssetNode_mono_down d b k x hx)

theorem foldl_process_mono_up :
    ∀ (l : List AssetNodeDef) (d : GraphData) (k x : GraphId),
      x ∈ lookupD d.upstream k → x ∈ lookupD (l.foldl processAssetNode d).upstream k := by
  intro l
  induction l with
  | nil => intro d k x hx; exact hx
  | cons b t ih => intro d k x hx; exact ih _ k x (processAssetNode_mono_up d b k x hx)

theorem foldl_dep_adds (id : GraphId) :
    ∀ (keys : List (List String)) (d : GraphData) (key : List String), key ∈ keys →
      toGraphId key ≠ id →
      id ∈ lookupD (keys.foldl (fun acc k => addEdge acc (toGraphId k) id) d).downstream (toGraphId key) ∧
      toGraphId key ∈ lookupD (keys.foldl (fun acc k => addEdge acc (toGraphId k) id) d).upstream id := by
  intro keys
  induction keys with
  | nil => intro d key h; simp at h
  | cons a t ih =>
    intro d key hmem hne
    rcases List.mem_cons.mp hmem with rfl | hmem
    · have hadd := addEdge_adds d (toGraphId key) id hne
      constructor
      · exact foldl_addEdge_mono_down _ (fun d b k2 x2 h => addEdge_mono_down d _ _ k2 x2 h)
          t _ _ _ hadd.1
      · exact foldl_addEdge_mono_up _ (fun d b k2 x2 h => addEdge_mono_up d _ _ k2 x2 h)
          t _ _ _ hadd.2
    · exact ih _ key hmem hne

theorem foldl_depBy_adds (id : GraphId) :
    ∀ (keys : List (List String)) (d : GraphData) (key : List String), key ∈ keys →
      toGraphId key ≠ id →
      toGraphId key ∈ lookupD (keys.foldl (fun acc k => addEdge acc id (toGraphId k)) d).downstream id ∧
      id ∈ lookupD (keys.foldl (fun acc k => addEdge acc id (toGraphId k)) d).upstream (toGraphId key) := by
  intro keys
  induction keys with
  | nil => intro d key h; simp at h
  | cons a t ih =>
    intro d key hmem hne
    rcases List.mem_cons.mp hmem with rfl | hmem
    · have hadd := addEdge_adds d id (toGraphId key) (fun h => hne h.symm)
      constructor
      · exact foldl_addEdge_mono_down _ (fun d b k2 x2 h => addEdge_mono_down d _ _ k2 x2 h)
          t _ _ _ hadd.1
      · exact foldl_addEdge_mono_up _ (fun d b k2 x2 h => addEdge_mono_up d _ _ k2 x2 h)
          t _ _ _ hadd.2
    · exact ih _ key hmem hne

theorem processAssetNode_adds_dep (data : GraphData) (definition : AssetNodeDef)
    (key : List String) (hmem : key ∈ definition.dependencyKeys)
    (hne : toGraphId key ≠ toGraphId definition.assetKey) :
    toGraphId definition.assetKey ∈
        lookupD (processAssetNode data definition).downstream (toGraphId key) ∧
      toGraphId key ∈
        lookupD (processAssetNode data definition).upstream (toGraphId definition.assetKey) := by
  rw [processAssetNode]
  have h1 := foldl_dep_adds (toGraphId definition.assetKey) definition.dependencyKeys data key hmem hne
  constructor
  · exact foldl_addEdge_mono_down _ (fun d b k2 x2 h => addEdge_mono_down d _ _ k2 x2 h)
      definition.dependedByKeys _ _ _ h1.1
  · exact foldl_addEdge_mono_up _ (fun d b k2 x2 h => addEdge_mono_up d _ _ k2 x2 h)
      definition.dependedByKeys _ _ _ h1.2

theorem processAssetNode_adds_depBy (data : GraphData) (definition : AssetNodeDef)
    (key : List String) (hmem : key ∈ definition.dependedByKeys)
    (hne : toGraphId key ≠ toGraphId definition.assetKey) :
    toGraphId key ∈
        lookupD (processAssetNode data definition).downstream (toGraphId definition.assetKey) ∧
      toGraphId definition.assetKey ∈
        lookupD (processAssetNode data definition).upstream (toGraphId key) := by
  rw [processAssetNode]
  exact foldl_depBy_adds (toGraphId definition.assetKey) definition.dependedByKeys _ key hmem hne

theorem addEdge_selfFree (d : GraphData) (u v : GraphId)
    (h : ∀ k, k ∉ lookupD d.downstream k ∧ k ∉ lookupD d.upstream k) :
    ∀ k, k ∉ lookupD (addEdge d u v).downstream k ∧ k ∉ lookupD (addEdge d u v).upstream k := by
  intro k
  by_cases huv : u = v
  · simpa [addEdge, huv] using h k
  · simp only [addEdge, if_neg huv]
    constructor
    · by_cases hk : u = k
      · subst hk
        rw [lookupD_setA_self]
        intro hc
        rcases (mem_insertKey _ v u).mp hc with hc | hc
        · exact (h u).1 hc
        · exact huv hc
      · rw [lookupD_setA_ne _ _ _ _ hk]
        exact (h k).1
    · by_cases hk : v = k
      · subst hk
        rw [lookupD_setA_self]
        intro hc
        rcases (mem_insertKey _ u v).mp hc with hc | hc
        · exact (h v).2 hc
        · exact huv hc.symm
      · rw [lookupD_setA_ne _ _ _ _ hk]
        exact (h k).2

theorem foldl_addEdge_selfFree {β : Type} (step : GraphData → β → GraphData)
    (hstep : ∀ d b, (∀ k, k ∉ lookupD d.downstream k ∧ k ∉ lookupD d.upstream k) →
      ∀ k, k ∉ lookupD (step d b).downstream k ∧ k ∉ lookupD (step d b).upstream k) :
    ∀ (l : List β) (d : GraphData),
      (∀ k, k ∉ lookupD d.downstream k ∧ k ∉ lookupD d.upstream k) →
      ∀ k, k ∉ lookupD (l.foldl step d).downstream k ∧ k ∉ lookupD (l.foldl step d).upstream k := by
  intro l
  induction l with
  | nil => intro d h; exact h
  | cons b t ih => intro d h; exact ih (step d b) (hstep d b h)

theorem processAssetNode_selfFree (data : GraphData) (definition : AssetNodeDef)
    (h : ∀ k, k ∉ lookupD data.downstream k ∧ k ∉ lookupD data.upstream k) :
    ∀ k, k ∉ lookupD (processAssetNode data definition).downstream k ∧
      k ∉ lookupD (processAssetNode data definition).upstream k := by
  rw [processAssetNode]
  refine foldl_addEdge_selfFree _ ?_ _ _
    (foldl_addEdge_selfFree _ ?_ _ _ h)
  · intro d b hd; exact addEdge_selfFree d _ _ hd
  · intro d b hd; exact addEdge_selfFree d _ _ hd

/-- Claim C1: for every definition list, every declared dependency or
depended-by edge whose endpoints have distinct GraphIds appears in both the
downstream index of the upstream id and the upstream index of the
downstream id of `buildGraphData`'s result; and no id is ever recorded as
its own downstream or upstream neighbor. -/
theorem buildGraphData_edges_sound :
    (∀ (defs : List AssetNodeDef) (d : AssetNodeDef), d ∈ defs →
      (∀ key ∈ d.dependencyKeys, toGraphId key ≠ toGraphId d.assetKey →
        toGraphId d.assetKey ∈ lookupD (buildGraphData defs).downstream (toGraphId key) ∧
        toGraphId key ∈ lookupD (buildGraphData defs).upstream (toGraphId d.assetKey)) ∧
      (∀ key ∈ d.dependedByKeys, toGraphId key ≠ toGraphId d.assetKey →
        toGraphId key ∈ lookupD (buildGraphData defs).downstream (toGraphId d.assetKey) ∧
        toGraphId d.assetKey ∈ lookupD (buildGraphData defs).upstream (toGraphId key))) ∧
    (∀ (defs : List AssetNodeDef) (k : GraphId),
      k ∉ lookupD (buildGraphData defs).downstream k ∧
      k ∉ lookupD (buildGraphData defs).upstream k) := by
  constructor
  · intro defs d hd
    obtain ⟨l1, l2, rfl⟩ := List.append_of_mem hd
    have hsplit : buildGraphData (l1 ++ d :: l2) =
        l2.foldl processAssetNode (processAssetNode (l1.foldl processAssetNode ⟨[], [], []⟩) d) := by
      rw [buildGraphData, List.foldl_append]
      rfl
    constructor
    · intro key hkey hne
      have h1 := processAssetNode_adds_dep (l1.foldl processAssetNode ⟨[], [], []⟩) d key hkey hne
      rw [hsplit]
      exact ⟨foldl_process_mono_down l2 _ _ _ h1.1, foldl_process_mono_up l2 _ _ _ h1.2⟩
    · intro key hkey hne
      have h1 := processAssetNode_adds_depBy (l1.foldl processAssetNode ⟨[], [], []⟩) d key hkey hne
      rw [hsplit]
      exact ⟨foldl_process_mono_down l2 _ _ _ h1.1, foldl_process_mono_up l2 _ _ _ h1.2⟩
  · intro defs k
    rw [buildGraphData]
    refine foldl_addEdge_selfFree processAssetNode ?_ defs ⟨[], [], []⟩ ?_ k
    · intro d b hd; exact processAssetNode_selfFree d b hd
    · intro k2; simp [lookupD, lookupA]

theorem buildGraphData_edges_sound_witness :
    toGraphId ["P"] ∈ lookupD (buildGraphData [defP]).downstream (toGraphId ["Q"]) ∧
    toGraphId ["Q"] ∈ lookupD (buildGraphData [defP]).upstream (toGraphId ["P"]) :=
  (buildGraphData_edges_sound.1 [defP] defP (by simp)).1 ["Q"] (by simp [defP, mkDef])
    (by decide)

/-! ## Span compressor lemmas (C7) -/

theorem covers_append_single (s : Span) :
    ∀ (l : List Span) (n : Nat), covers l n s.startIdx → s.startIdx ≤ s.endIdx →
      covers (l ++ [s]) n (s.endIdx + 1) := by
  intro l
  induction l with
  | nil =>
    intro n h hle
    rw [covers] at h
    subst h
    exact ⟨rfl, hle, rfl⟩
  | cons a t ih =>
    intro n h hle
    obtain ⟨h1, h2, h3⟩ := h
    exact ⟨h1, h2, ih _ h3 hle⟩

theorem covers_append_single_inv (s : Span) :
    ∀ (l : List Span) (n m : Nat), covers (l ++ [s]) n m →
      covers l n s.startIdx ∧ s.startIdx ≤ s.endIdx ∧ m = s.endIdx + 1 := by
  intro l
  induction l with
  | nil =>
    intro n m h
    obtain ⟨h1, h2, h3⟩ := h
    rw [covers] at h3
    exact ⟨h1.symm, h2, h3.symm⟩
  | cons a t ih =>
    intro n m h
    obtain ⟨h1, h2, h3⟩ := h
    obtain ⟨g1, g2, g3⟩ := ih _ _ h3
    exact ⟨⟨h1, h2, g1⟩, g2, g3⟩

theorem partitionsToSpansGo_spec (keyStatus : String → Option PartitionState) (full : List String) :
    ∀ (names : List String) (ii : Nat) (acc : List Span),
      (∀ j, names[j]? = full[ii + j]?) →
      ii ≤ full.length →
      covers acc.reverse 0 ii →
      (∀ sp ∈ acc, ∀ i, sp.startIdx ≤ i → i ≤ sp.endIdx →
        ∃ k, full[i]? = some k ∧ sp.status = (keyStatus k).getD PartitionState.MISSING) →
      List.Chain' (fun a b => a.status ≠ b.status) acc →
      covers (partitionsToSpansGo keyStatus names ii acc) 0 full.length ∧
      (∀ sp ∈ partitionsToSpansGo keyStatus names ii acc, ∀ i, sp.startIdx ≤ i → i ≤ sp.endIdx →
        ∃ k, full[i]? = some k ∧ sp.status = (keyStatus k).getD PartitionState.MISSING) ∧
      List.Chain' (fun a b => a.status ≠ b.status) (partitionsToSpansGo keyStatus names ii acc) := by
  intro names
  induction names with
  | nil =>
    intro ii acc hnames hile hcov hstat hchain
    have hii : full.length ≤ ii := by
      have h0 := hnames 0
      simp only [List.getElem?_nil] at h0
      exact List.getElem?_eq_none_iff.mp (Nat.add_zero ii ▸ h0.symm)
    have hif : ii = full.length := Nat.le_antisymm hile hii
    subst hif
    rw [partitionsToSpansGo]
    refine ⟨hcov, ?_, ?_⟩
    · intro sp hsp
      exact hstat sp (List.mem_reverse.mp hsp)
    · exact List.chain'_reverse.mpr (hchain.imp (fun a b hab => Ne.symm hab))
  | cons k ks ih =>
    intro ii acc hnames hile hcov hstat hchain
    have hfull0 : full[ii]? = some k := by
      have h0 := hnames 0
      simp only [List.getElem?_cons_zero] at h0
      exact (Nat.add_zero ii ▸ h0).symm
    have hiilt : ii < full.length := by
      by_contra hc
      rw [List.getElem?_eq_none_iff.mpr (Nat.le_of_not_lt hc)] at hfull0
      cases hfull0
    have hnames' : ∀ j, ks[j]? = full[(ii + 1) + j]? := by
      intro j
      have hj := hnames (j + 1)
      simp only [List.getElem?_cons_succ] at hj
      rw [hj]
      congr 1
      omega
    rw [partitionsToSpansGo]
    rcases hacc : acc with _ | ⟨a, t⟩
    · -- empty accumulator: start the first span at ii (= 0)
      have hii0 : ii = 0 := by
        rw [hacc] at hcov
        simpa [covers] using hcov.symm
      subst hii0
      refine ih 1 _ hnames' hiilt ?_ ?_ ?_
      · simp [pushSpan, covers]
      · intro sp hsp i h1 h2
        simp only [pushSpan, List.mem_singleton] at hsp
        subst hsp
        simp only at h1 h2
        have hi0 : i = 0 := Nat.le_antisymm h2 h1
        subst hi0
        exact ⟨k, hfull0, rfl⟩
      · simp [pushSpan]
    · -- nonempty accumulator: extend the last span or start a new one
      have hcov' : covers (t.reverse ++ [a]) 0 ii := by
        rw [hacc] at hcov
        simpa using hcov
      obtain ⟨hcovt, hase, hiieq⟩ := covers_append_single_inv a t.reverse 0 ii hcov'
      by_cases hst : a.status = (keyStatus k).getD PartitionState.MISSING
      · -- extend: statuses agree
        refine ih (ii + 1) _ hnames' hiilt ?_ ?_ ?_
        · have : pushSpan (a :: t) ii ((keyStatus k).getD PartitionState.MISSING) =
              ⟨a.startIdx, ii, (keyStatus k).getD PartitionState.MISSING⟩ :: t := by
            simp [pushSpan, hst]
          rw [this]
          simp only [List.reverse_cons]
          refine covers_append_single _ t.reverse 0 ?_ ?_
          · exact hcovt
          · simp only
            omega
        · intro sp hsp i h1 h2
          simp only [pushSpan, hst, if_pos, List.mem_cons] at hsp
          rcases hsp with hsp | hsp
          · subst hsp
            simp only at h1 h2
            by_cases hi : i ≤ a.endIdx
            · obtain ⟨k2, hk2, hs2⟩ := hstat a (by rw [hacc]; exact List.mem_cons_self a t) i h1 hi
              exact ⟨k2, hk2, by rw [← hst]; exact hs2⟩
            · have : i = ii := by omega
              subst this
              exact ⟨k, hfull0, rfl⟩
          · exact hstat sp (by rw [hacc]; exact List.mem_cons_of_mem a hsp) i h1 h2
        · have hch : List.Chain' (fun a b => a.status ≠ b.status) (a :: t) := by
            rw [hacc] at hchain; exact hchain
          simp only [pushSpan, hst, if_pos]
          rcases t with _ | ⟨b, t2⟩
          · simp
          · rw [List.chain'_cons] at hch ⊢
            refine ⟨?_, hch.2⟩
            simp only
            rw [← hst]
            exact hch.1
      · -- new span: statuses differ
        refine ih (ii + 1) _ hnames' hiilt ?_ ?_ ?_
        · have : pushSpan (a :: t) ii ((keyStatus k).getD PartitionState.MISSING) =
              ⟨ii, ii, (keyStatus k).getD PartitionState.MISSING⟩ :: a :: t := by
            simp [pushSpan, hst]
          rw [this]
          simp only [List.reverse_cons]
          have hgoal := covers_append_single ⟨ii, ii, (keyStatus k).getD PartitionState.MISSING⟩
            ((a :: t).reverse) 0 (by simpa using hcov') (Nat.le_refl ii)
          simpa using hgoal
        · intro sp hsp i h1 h2
          simp only [pushSpan, hst] at hsp
          simp only [if_false, List.mem_cons] at hsp
          rcases hsp with hsp | hsp | hsp
          · subst hsp
            simp only at h1 h2
            have : i = ii := Nat.le_antisymm h2 h1
            subst this
            exact ⟨k, hfull0, rfl⟩
          · subst hsp
            exact hstat sp (by rw [hacc]; exact List.mem_cons_self sp t) i h1 h2
          · exact hstat sp (by rw [hacc]; exact List.mem_cons_of_mem a hsp) i h1 h2
        · simp only [pushSpan, hst]
          simp only [if_false]
          rw [List.chain'_cons]
          refine ⟨fun h => hst h.symm, ?_⟩
          rw [hacc] at hchain
          exact hchain

theorem entriesOf_filter_nil (f : String → Nat → PartitionState) :
    ∀ (names : List String) (i0 : Nat) (x : String), x ∉ names →
      (entriesOf f names i0).filter (fun p => p.1 = x) = [] := by
  intro names
  induction names with
  | nil => intro i0 x _; rfl
  | cons n rest ih =>
    intro i0 x hx
    have hne : ¬ (n = x) := fun h => hx (h ▸ List.mem_cons_self n rest)
    have hxr : x ∉ rest := fun h => hx (List.mem_cons_of_mem n h)
    simp [entriesOf, List.filter_cons, hne, ih (i0 + 1) x hxr]

theorem fromEntriesLookup_nodup (f : String → Nat → PartitionState) :
    ∀ (names : List String) (i i0 : Nat) (k : String), names.Nodup → names[i]? = some k →
      fromEntriesLookup (entriesOf f names i0) k = some (f k (i0 + i)) := by
  intro names
  induction names with
  | nil => intro i i0 k _ h; simp at h
  | cons n rest ih =>
    intro i i0 k hnd hget
    have hnd' := List.nodup_cons.mp hnd
    rcases i with _ | j
    · simp only [List.getElem?_cons_zero, Option.some.injEq] at hget
      subst hget
      rw [fromEntriesLookup, entriesOf, List.filter_cons]
      simp [entriesOf_filter_nil f rest (i0 + 1) n hnd'.1]
    · simp only [List.getElem?_cons_succ] at hget
      have hkr : k ∈ rest := List.getElem?_mem hget
      have hkn : ¬ (n = k) := fun h => hnd'.1 (h ▸ hkr)
      have heq : fromEntriesLookup (entriesOf f (n :: rest) i0) k =
          fromEntriesLookup (entriesOf f rest (i0 + 1)) k := by
        simp only [fromEntriesLookup, entriesOf, List.filter_cons]
        simp [hkn]
      rw [heq, ih j (i0 + 1) k hnd'.2 hget]
      have harith : i0 + 1 + j = i0 + (j + 1) := by omega
      rw [harith]

/-- Claim C7 (amended: duplicate-free partition-name lists): `toSpans`
covers every index exactly once in order, assigns each index the status
computed for its partition, and no two adjacent spans share a status; and
on four partitions with statuses success, success, missing, missing it
returns exactly the two spans (0,1,success) and (2,3,missing). -/
theorem toSpans_spec_nodup :
    (∀ (names : List String) (f : String → Nat → PartitionState), names.Nodup →
      covers (toSpans names f) 0 names.length ∧
      (∀ sp ∈ toSpans names f, ∀ i k, sp.startIdx ≤ i → i ≤ sp.endIdx →
        names[i]? = some k → sp.status = f k i) ∧
      List.Chain' (fun a b => a.status ≠ b.status) (toSpans names f)) ∧
    toSpans names4 statusF0 =
      [⟨0, 1, PartitionState.SUCCESS⟩, ⟨2, 3, PartitionState.MISSING⟩] := by
  constructor
  · intro names f hnd
    have hmain := partitionsToSpansGo_spec (fromEntriesLookup (entriesOf f names 0)) names
      names 0 []
      (fun j => by rw [Nat.zero_add])
      (Nat.zero_le _)
      (by simp [covers])
      (by simp)
      (by simp)
    refine ⟨hmain.1, ?_, hmain.2.2⟩
    intro sp hsp i k h1 h2 hget
    obtain ⟨k2, hk2, hs2⟩ := hmain.2.1 sp hsp i h1 h2
    have hkk : k2 = k := by
      rw [hget] at hk2
      exact (Option.some.injEq _ _ ▸ hk2).symm
    subst hkk
    rw [fromEntriesLookup_nodup f names i 0 k2 hnd hget] at hs2
    simpa using hs2
  · decide

theorem toSpans_spec_nodup_witness :
    covers (toSpans names4 statusF0) 0 names4.length :=
  (toSpans_spec_nodup.1 names4 statusF0 (by decide)).1

/-- Claim C7 counterexample: with a duplicated partition name the
`Object.fromEntries` status map keeps only the last computed status, so the
span covering index 0 carries `missing` even though the status computed for
partition 0 is `success`. -/
theorem toSpans_duplicate_names_counterexample :
    toSpans ["p", "p"] statusF2 = [⟨0, 1, PartitionState.MISSING⟩] ∧
      statusF2 "p" 0 = PartitionState.SUCCESS := by
  decide

/-! ## Cycle detector lemmas (C2) -/

theorem chain_append_transGen {R : GraphId → GraphId → Prop} :
    ∀ (l : List GraphId) (a b : GraphId), List.Chain R a (l ++ [b]) → Relation.TransGen R a b := by
  intro l
  induction l with
  | nil =>
    intro a b h
    rw [List.nil_append, List.chain_cons] at h
    exact Relation.TransGen.single h.1
  | cons c t ih =>
    intro a b h
    rw [List.cons_append, List.chain_cons] at h
    exact Relation.TransGen.head h.1 (ih c b h.2)

theorem searchMany_true_cycle (g : GraphData) :
    ∀ (pool stack ns : List GraphId),
      (∀ n ∈ ns, List.Chain' (edgeRel g) (stack ++ [n])) →
      (searchMany g pool stack ns).1 = true →
      ∃ u, Relation.TransGen (edgeRel g) u u := by
  intro pool stack ns
  induction pool, stack, ns using searchMany.induct g with
  | case1 pool stack =>
    intro _ hres
    simp [searchMany] at hres
  | case2 pool stack n ns hst =>
    intro hchain _
    have hch := hchain n (List.mem_cons_self n ns)
    obtain ⟨l1, l2, rfl⟩ := List.append_of_mem hst
    rw [List.append_assoc, List.cons_append] at hch
    have hch2 : List.Chain' (edgeRel g) (n :: (l2 ++ [n])) := hch.right_of_append
    have hch3 : List.Chain (edgeRel g) n (l2 ++ [n]) := hch2
    exact ⟨n, chain_append_transGen l2 n n hch3⟩
  | case3 pool stack n ns hst hp hlt p heq ih =>
    intro hchain _
    have hch := hchain n (List.mem_cons_self n ns)
    refine ih ?_ (by rw [heq])
    intro m hm
    rw [List.chain'_append]
    refine ⟨hch, by simp, ?_⟩
    intro x hx y hy
    simp only [List.getLast?_concat, Option.mem_def, Option.some.injEq] at hx
    simp only [List.head?_cons, Option.mem_def, Option.some.injEq] at hy
    subst hx
    subst hy
    exact hm
  | case4 pool stack n ns hst hp hlt p heq b q heq2 ih1 ih2 =>
    intro hchain hres
    rw [searchMany] at hres
    rw [dif_neg hst, dif_pos hp, heq] at hres
    dsimp only at hres
    rw [heq2] at hres
    dsimp only at hres
    subst hres
    refine ih2 ?_ (by rw [heq2])
    intro m hm
    exact hchain m (List.mem_cons_of_mem n hm)
  | case5 pool stack n ns hst hp b q heq ih =>
    intro hchain hres
    rw [searchMany] at hres
    rw [dif_neg hst, dif_neg hp, heq] at hres
    simp only at hres
    subst hres
    refine ih ?_ (by rw [heq])
    intro m hm
    exact hchain m (List.mem_cons_of_mem n hm)

theorem hasCyclesLoop_true_cycle (g : GraphData) :
    ∀ (pool : List GraphId), hasCyclesLoop g pool = true →
      ∃ u, Relation.TransGen (edgeRel g) u u := by
  intro pool
  induction pool using hasCyclesLoop.induct g with
  | case1 =>
    intro h
    simp [hasCyclesLoop] at h
  | case2 p ps snd heq =>
    intro _
    refine searchMany_true_cycle g (p :: ps) [] [p] ?_ (by rw [heq])
    intro m hm
    simp only [List.mem_singleton] at hm
    subst hm
    simp
  | case3 p ps rest heq ih =>
    intro hres
    rw [hasCyclesLoop, heq] at hres
    dsimp only at hres
    exact ih hres

/-- Claim C2: `graphHasCycles` returns true on the 2-node mutual-dependency
graph, false on every acyclic graph (no id reaches itself through the raw
downstream index), and false on the diamond. -/
theorem graphHasCycles_spec :
    graphHasCycles mutualG = true ∧
    (∀ g : GraphData, (∀ u, ¬ Relation.TransGen (edgeRel g) u u) → graphHasCycles g = false) ∧
    graphHasCycles diamondG = false := by
  refine ⟨?_, ?_, ?_⟩
  · simp +decide [graphHasCycles, hasCyclesLoop, searchMany, dedupKeepFirst, dedupKeepFirstAux,
      downstreamKeys, lookupD, lookupA, mutualG, idA, idB, nodeA, nodeB, mkNode, toGraphId,
      jsonEncodeString, jsEscapeChar]
  · intro g hacyc
    cases h : graphHasCycles g with
    | false => rfl
    | true =>
      rw [graphHasCycles] at h
      obtain ⟨u, hu⟩ := hasCyclesLoop_true_cycle g _ h
      exact (hacyc u hu).elim
  · simp +decide [graphHasCycles, hasCyclesLoop, searchMany, dedupKeepFirst, dedupKeepFirstAux,
      downstreamKeys, lookupD, lookupA, diamondG, idA, idB, idC, idD, nodeA, nodeB, nodeC, nodeD,
      mkNode, toGraphId, jsonEncodeString, jsEscapeChar]

theorem graphHasCycles_spec_witness : graphHasCycles emptyG = false :=
  graphHasCycles_spec.2.1 emptyG (fun u hu => by
    have hnoedge : ∀ a b : GraphId, ¬ edgeRel emptyG a b := by
      intro a b h
      simp [edgeRel, emptyG, lookupD, lookupA] at h
    cases hu with
    | single h => exact hnoedge _ _ h
    | tail _ h => exact hnoedge _ _ h)

/-! ## Direction search lemmas (C6) -/

theorem graphDirectionOfAux_mono (g : GraphData) (toId : GraphId) :
    ∀ (fuel : Nat) (stack : List GraphNode) (r : Direction),
      graphDirectionOfAux g toId fuel stack = some r →
      ∀ fuel2, fuel ≤ fuel2 → graphDirectionOfAux g toId fuel2 stack = some r := by
  intro fuel
  induction fuel with
  | zero => intro stack r h; simp [graphDirectionOfAux] at h
  | succ m ih =>
    intro stack r h fuel2 hle
    rcases fuel2 with _ | m2
    · omega
    rcases stack with _ | ⟨s, ss⟩
    · simpa [graphDirectionOfAux] using h
    rw [graphDirectionOfAux] at h ⊢
    by_cases hfound : (succs g ((s :: ss).getLast (List.cons_ne_nil s ss))).any (fun d => d.id = toId)
    · rw [if_pos hfound] at h ⊢
      exact h
    · rw [if_neg hfound] at h ⊢
      exact ih _ r h m2 (Nat.le_of_succ_le_succ hle)

theorem graphDirectionOfAux_downstream_sound (g : GraphData) (toId : GraphId) :
    ∀ (fuel : Nat) (stack : List GraphNode),
      graphDirectionOfAux g toId fuel stack = some Direction.downstream →
      ∃ u ∈ stack, FindsTarget g toId u := by
  intro fuel
  induction fuel with
  | zero => intro stack h; simp [graphDirectionOfAux] at h
  | succ m ih =>
    intro stack h
    rcases stack with _ | ⟨s, ss⟩
    · simp [graphDirectionOfAux] at h
    rw [graphDirectionOfAux] at h
    by_cases hfound : (succs g ((s :: ss).getLast (List.cons_ne_nil s ss))).any (fun d => d.id = toId)
    · obtain ⟨d, hd, hdid⟩ := List.any_eq_true.mp hfound
      refine ⟨(s :: ss).getLast (List.cons_ne_nil s ss), List.getLast_mem _, ?_⟩
      exact ⟨(s :: ss).getLast (List.cons_ne_nil s ss), Relation.ReflTransGen.refl,
        ⟨d, hd, of_decide_eq_true hdid⟩⟩
    · rw [if_neg hfound] at h
      obtain ⟨u, hu, hFT⟩ := ih _ h
      rcases List.mem_append.mp hu with hu | hu
      · exact ⟨u, (List.dropLast_sublist (s :: ss)).subset hu, hFT⟩
      · refine ⟨(s :: ss).getLast (List.cons_ne_nil s ss), List.getLast_mem _, ?_⟩
        obtain ⟨w, hpath, hhit⟩ := hFT
        exact ⟨w, Relation.ReflTransGen.head hu hpath, hhit⟩

theorem graphDirectionOfAux_upstream_complete (g : GraphData) (toId : GraphId) :
    ∀ (fuel : Nat) (stack : List GraphNode),
      graphDirectionOfAux g toId fuel stack = some Direction.upstream →
      ∀ u ∈ stack, ¬ FindsTarget g toId u := by
  intro fuel
  induction fuel with
  | zero => intro stack h; simp [graphDirectionOfAux] at h
  | succ m ih =>
    intro stack h u hu hFT
    rcases stack with _ | ⟨s, ss⟩
    · simp at hu
    rw [graphDirectionOfAux] at h
    by_cases hfound : (succs g ((s :: ss).getLast (List.cons_ne_nil s ss))).any (fun d => d.id = toId)
    · rw [if_pos hfound] at h
      cases h
    · rw [if_neg hfound] at h
      have hstack : (s :: ss).dropLast ++ [(s :: ss).getLast (List.cons_ne_nil s ss)] = s :: ss :=
        List.dropLast_append_getLast (List.cons_ne_nil s ss)
      have hucase : u ∈ (s :: ss).dropLast ∨ u = (s :: ss).getLast (List.cons_ne_nil s ss) := by
        rw [← hstack] at hu
        rcases List.mem_append.mp hu with hu2 | hu2
        · exact Or.inl hu2
        · exact Or.inr (List.mem_singleton.mp hu2)
      rcases hucase with hu2 | rfl
      · exact ih _ h u (List.mem_append.mpr (Or.inl hu2)) hFT
      · obtain ⟨w, hpath, d, hd, hdid⟩ := hFT
        rcases Relation.ReflTransGen.cases_head hpath with rfl | ⟨v, hstep, hpath2⟩
        · refine absurd ?_ hfound
          rw [List.any_eq_true]
          exact ⟨d, hd, decide_eq_true hdid⟩
        · exact ih _ h v (List.mem_append.mpr (Or.inr hstep)) ⟨w, hpath2, d, hd, hdid⟩

/-- Claim C6 (amended: whenever the search terminates): whenever
`graphDirectionOf` returns a result, that result is `'downstream'` exactly
when the target can be found by the downstream walk through nodes present
in the node map; in every other terminating case — including a target
unreachable in either direction — it is `'upstream'`.  (As stated for
every graph the claim fails: on cyclic graphs the search need not return,
see the counterexample.) -/
theorem graphDirectionOf_result_iff_reachable (g : GraphData) (f t : GraphNode) (fuel : Nat)
    (r : Direction) (h : graphDirectionOf g f t fuel = some r) :
    r = Direction.downstream ↔ FindsTarget g t.id f := by
  constructor
  · rintro rfl
    obtain ⟨u, hu, hFT⟩ := graphDirectionOfAux_downstream_sound g t.id fuel [f] h
    rw [List.mem_singleton] at hu
    subst hu
    exact hFT
  · intro hFT
    cases r with
    | downstream => rfl
    | upstream =>
      exact absurd hFT
        (graphDirectionOfAux_upstream_complete g t.id fuel [f] h f (List.mem_singleton.mpr rfl))

theorem graphDirectionOf_result_iff_reachable_witness :
    Direction.downstream = Direction.downstream ↔ FindsTarget chainG nodeD.id nodeA :=
  graphDirectionOf_result_iff_reachable chainG nodeA nodeD 5 Direction.downstream (by decide)

theorem mutualG_search_diverges :
    ∀ (fuel : Nat) (stack : List GraphNode), (stack = [nodeA] ∨ stack = [nodeB]) →
      graphDirectionOfAux mutualG nodeX.id fuel stack = none := by
  intro fuel
  induction fuel with
  | zero => intro stack _; rfl
  | succ m ih =>
    intro stack hstack
    have hsA : succs mutualG nodeA = [nodeB] := by decide
    have hsB : succs mutualG nodeB = [nodeA] := by decide
    rcases hstack with rfl | rfl
    · rw [graphDirectionOfAux]
      have hgl : ([nodeA] : List GraphNode).getLast (List.cons_ne_nil nodeA []) = nodeA := rfl
      rw [hgl, hsA]
      rw [if_neg (by decide)]
      exact ih _ (Or.inr rfl)
    · rw [graphDirectionOfAux]
      have hgl : ([nodeB] : List GraphNode).getLast (List.cons_ne_nil nodeB []) = nodeB := rfl
      rw [hgl, hsB]
      rw [if_neg (by decide)]
      exact ih _ (Or.inl rfl)

/-- Claim C6 counterexample: on the cyclic two-node graph, with a target
reachable in neither direction, `graphDirectionOf` never returns at all —
in particular it does not return `'upstream'` as the claim requires. -/
theorem graphDirectionOf_diverges_on_cycle :
    ¬ GDReturns mutualG nodeA nodeX Direction.upstream ∧
      ¬ GDReturns mutualG nodeA nodeX Direction.downstream := by
  constructor
  · rintro ⟨fuel, h⟩
    rw [graphDirectionOf, mutualG_search_diverges fuel [nodeA] (Or.inl rfl)] at h
    cases h
  · rintro ⟨fuel, h⟩
    rw [graphDirectionOf, mutualG_search_diverges fuel [nodeA] (Or.inl rfl)] at h
    cases h

/-! ## Termination on ranked graphs (C9) -/

theorem le_foldl_max : ∀ (l : List Nat) (a : Nat), a ≤ l.foldl Nat.max a := by
  intro l
  induction l with
  | nil => intro a; exact Nat.le_refl a
  | cons x t ih =>
    intro a
    exact Nat.le_trans (Nat.le_max_left a x) (ih (Nat.max a x))

theorem mem_le_foldl_max : ∀ (l : List Nat) (a x : Nat), x ∈ l → x ≤ l.foldl Nat.max a := by
  intro l
  induction l with
  | nil => intro a x h; simp at h
  | cons y t ih =>
    intro a x h
    rcases List.mem_cons.mp h with rfl | h
    · exact Nat.le_trans (Nat.le_max_right a x) (le_foldl_max t (Nat.max a x))
    · exact ih (Nat.max a y) x h

theorem lookupA_mem_snd {α : Type} :
    ∀ (m : List (GraphId × α)) (k : GraphId) (v : α), lookupA m k = some v → v ∈ m.map Prod.snd := by
  intro m
  induction m with
  | nil => intro k v h; simp [lookupA] at h
  | cons hd tl ih =>
    intro k v h
    rw [lookupA] at h
    by_cases hk : hd.1 = k
    · rw [if_pos hk] at h
      simp only [Option.some.injEq] at h
      simp [← h]
    · rw [if_neg hk] at h
      simp [ih k v h]

theorem lookupD_length_le_maxDown (g : GraphData) (k : GraphId) :
    (lookupD g.downstream k).length ≤ maxDown g := by
  rw [lookupD]
  rcases h : lookupA g.downstream k with _ | v
  · simp
  · simp only [Option.getD_some]
    have hv := lookupA_mem_snd g.downstream k v h
    have : v.length ∈ (g.downstream.map (fun p => p.2.length)) := by
      simp only [List.mem_map] at hv ⊢
      obtain ⟨p, hp, hpe⟩ := hv
      exact ⟨p, hp, by rw [hpe]⟩
    exact mem_le_foldl_max _ 0 _ this

theorem succs_length_le_maxDown (g : GraphData) (u : GraphNode) :
    (succs g u).length ≤ maxDown g :=
  Nat.le_trans (List.length_filterMap_le _ _) (lookupD_length_le_maxDown g u.id)

theorem stackWeight_succs_lt (g : GraphData) (rk : GraphId → Nat)
    (hrank : ∀ u v : GraphNode, v ∈ succs g u → rk v.id < rk u.id) (u : GraphNode) :
    stackWeight (maxDown g) rk (succs g u) < (maxDown g + 1) ^ (rk u.id) := by
  rcases hru : rk u.id with _ | m
  · have hempty : succs g u = [] := by
      rcases hs : succs g u with _ | ⟨v, vs⟩
      · rfl
      · have := hrank u v (by rw [hs]; exact List.mem_cons_self v vs)
        omega
    simp [hempty, stackWeight]
  · have hterm : ∀ x ∈ (succs g u).map (fun n => (maxDown g + 1) ^ (rk n.id)),
        x ≤ (maxDown g + 1) ^ m := by
      intro x hx
      simp only [List.mem_map] at hx
      obtain ⟨v, hv, rfl⟩ := hx
      have := hrank u v hv
      exact Nat.pow_le_pow_right (Nat.succ_le_succ (Nat.zero_le _)) (by omega)
    have hsum := List.sum_le_card_nsmul _ _ hterm
    rw [List.length_map] at hsum
    have hlen := succs_length_le_maxDown g u
    have hb : (succs g u).length • ((maxDown g + 1) ^ m) ≤ maxDown g * ((maxDown g + 1) ^ m) := by
      rw [smul_eq_mul]
      exact Nat.mul_le_mul_right _ hlen
    have hfin : maxDown g * ((maxDown g + 1) ^ m) < (maxDown g + 1) ^ (m + 1) := by
      rw [pow_succ, Nat.mul_comm ((maxDown g + 1) ^ m) (maxDown g + 1)]
      have hpow : 0 < (maxDown g + 1) ^ m := Nat.pos_pow_of_pos m (Nat.succ_pos _)
      exact Nat.mul_lt_mul_of_lt_of_le (Nat.lt_succ_self _) (Nat.le_refl _) hpow
    calc stackWeight (maxDown g) rk (succs g u) ≤ _ := hsum
      _ ≤ maxDown g * ((maxDown g + 1) ^ m) := hb
      _ < (maxDown g + 1) ^ (m + 1) := hfin

theorem stackWeight_append (B : Nat) (rk : GraphId → Nat) (l1 l2 : List GraphNode) :
    stackWeight B rk (l1 ++ l2) = stackWeight B rk l1 + stackWeight B rk l2 := by
  simp [stackWeight]

theorem graphDirectionOfAux_adequate (g : GraphData) (toId : GraphId) (rk : GraphId → Nat)
    (hrank : ∀ u v : GraphNode, v ∈ succs g u → rk v.id < rk u.id) :
    ∀ (fuel : Nat) (stack : List GraphNode), stackWeight (maxDown g) rk stack < fuel →
      (graphDirectionOfAux g toId fuel stack).isSome := by
  intro fuel
  induction fuel with
  | zero => intro stack h; omega
  | succ m ih =>
    intro stack hw
    rcases stack with _ | ⟨s, ss⟩
    · simp [graphDirectionOfAux]
    rw [graphDirectionOfAux]
    by_cases hfound : (succs g ((s :: ss).getLast (List.cons_ne_nil s ss))).any (fun d => d.id = toId)
    · rw [if_pos hfound]
      rfl
    · rw [if_neg hfound]
      refine ih _ ?_
      have hstack : (s :: ss).dropLast ++ [(s :: ss).getLast (List.cons_ne_nil s ss)] = s :: ss :=
        List.dropLast_append_getLast (List.cons_ne_nil s ss)
      have hsplit : stackWeight (maxDown g) rk (s :: ss) =
          stackWeight (maxDown g) rk ((s :: ss).dropLast) +
            (maxDown g + 1) ^ (rk (((s :: ss).getLast (List.cons_ne_nil s ss)).id)) := by
        conv_lhs => rw [← hstack]
        rw [stackWeight_append]
        simp [stackWeight]
      rw [stackWeight_append]
      have hlt := stackWeight_succs_lt g rk hrank ((s :: ss).getLast (List.cons_ne_nil s ss))
      omega

/-- Claim C9 (amended: on graphs admitting a rank function that strictly
decreases along present downstream edges — in particular on acyclic graphs,
the only ones reaching these operations after the cycle check):
`directionBetween` and `opsInRange` both terminate.  (As stated for every
graph the claim fails: on the cyclic two-node graph both diverge, see the
counterexample.) -/
theorem topology_terminates_on_ranked (g : GraphData) (f t : GraphNode) (rk : GraphId → Nat)
    (hrank : ∀ u v : GraphNode, v ∈ succs g u → rk v.id < rk u.id) :
    ∃ fuel, (graphDirectionOf g f t fuel).isSome ∧ (opsInRange g (some f) t fuel).isSome := by
  refine ⟨stackWeight (maxDown g) rk [f] + 1, ?_, ?_⟩
  · exact graphDirectionOfAux_adequate g t.id rk hrank _ [f] (Nat.lt_succ_self _)
  · rw [opsInRange]
    by_cases hft : f.id = t.id
    · rw [if_pos hft]
      rfl
    · rw [if_neg hft]
      have h := graphDirectionOfAux_adequate g t.id rk hrank
        (stackWeight (maxDown g) rk [f] + 1) [f] (Nat.lt_succ_self _)
      rcases hr : graphDirectionOfAux g t.id (stackWeight (maxDown g) rk [f] + 1) [f] with _ | r
      · rw [hr] at h
        simp at h
      · cases r <;> rfl

theorem chainG_rank_ok :
    ∀ u v : GraphNode, v ∈ succs chainG u → chainRank v.id < chainRank u.id := by
  intro u v hv
  by_cases h1 : idA = u.id
  · have hs : succs chainG u = [nodeB] := by
      simp +decide [succs, lookupD, lookupA, chainG, ← h1]
    rw [hs, List.mem_singleton] at hv
    subst hv
    rw [← h1]
    decide
  · by_cases h2 : idB = u.id
    · have hs : succs chainG u = [nodeC] := by
        simp +decide [succs, lookupD, lookupA, chainG, ← h2, h1]
      rw [hs, List.mem_singleton] at hv
      subst hv
      rw [← h2]
      decide
    · by_cases h3 : idC = u.id
      · have hs : succs chainG u = [nodeD] := by
          simp +decide [succs, lookupD, lookupA, chainG, ← h3, h1, h2]
        rw [hs, List.mem_singleton] at hv
        subst hv
        rw [← h3]
        decide
      · have hs : succs chainG u = [] := by
          simp [succs, lookupD, lookupA, chainG, h1, h2, h3]
        rw [hs] at hv
        simp at hv

theorem topology_terminates_on_ranked_witness :
    ∃ fuel, (graphDirectionOf chainG nodeA nodeD fuel).isSome ∧
      (opsInRange chainG (some nodeA) nodeD fuel).isSome :=
  topology_terminates_on_ranked chainG nodeA nodeD chainRank chainG_rank_ok

/-- Claim C9 counterexample: on the cyclic two-node graph `opsInRange`
(driven by the diverging direction search) never finishes, for any amount
of fuel. -/
theorem opsInRange_diverges_on_cycle :
    ¬ OpsInRangeTerminates mutualG (some nodeA) nodeX := by
  rintro ⟨fuel, h⟩
  rw [opsInRange] at h
  rw [if_neg (by decide)] at h
  rw [mutualG_search_diverges fuel [nodeA] (Or.inl rfl)] at h
  simp at h

/-! ## opsInRange lemmas (C10, C5) -/

theorem attach_map_eval {α β : Type} (l : List α) (F : α → β) :
    l.attach.map (fun x => F x.1) = l.map F := by
  have h1 : (fun x : {a // a ∈ l} => F x.1) = F ∘ Subtype.val := rfl
  rw [h1, ← List.map_map, List.attach_map_subtype_val]

theorem opsInRangeRec_eq (g : GraphData) (toNode f : GraphNode) (seen : List GraphId) :
    opsInRangeRec g toNode f seen =
      if f.id = toNode.id then toNode.definition.opNames
      else dedupKeepFirst (List.flatten ((succs g f).map (fun n =>
        if n.id ∈ seen then []
        else if opsInRangeRec g toNode n (seen ++ [f.id]) = [] then []
        else f.definition.opNames ++ opsInRangeRec g toNode n (seen ++ [f.id])))) := by
  rw [opsInRangeRec]
  by_cases hft : f.id = toNode.id
  · rw [if_pos hft, if_pos hft]
  · rw [if_neg hft, if_neg hft]
    congr 2
    rw [← attach_map_eval (succs g f) (fun n =>
      if n.id ∈ seen then []
      else if opsInRangeRec g toNode n (seen ++ [f.id]) = [] then []
      else f.definition.opNames ++ opsInRangeRec g toNode n (seen ++ [f.id]))]
    apply List.map_congr_left
    intro n _
    by_cases hns : n.1.id ∈ seen
    · rw [dif_pos hns, if_pos hns]
    · rw [dif_neg hns, if_neg hns]

theorem opsInRangeRec_nil_of_target_absent (g : GraphData) (tgt : GraphNode)
    (habs : ∀ p ∈ g.nodes, p.2.id ≠ tgt.id) :
    ∀ (cur : GraphNode) (seen : List GraphId), cur.id ≠ tgt.id →
      opsInRangeRec g tgt cur seen = [] := by
  intro cur seen
  induction cur, seen using opsInRangeRec.induct g tgt with
  | case1 f seen hft => intro hne; exact absurd hft hne
  | case2 f seen hft ih =>
    intro _
    rw [opsInRangeRec_eq, if_neg hft]
    have hflat : List.flatten ((succs g f).map (fun n =>
        if n.id ∈ seen then []
        else if opsInRangeRec g tgt n (seen ++ [f.id]) = [] then []
        else f.definition.opNames ++ opsInRangeRec g tgt n (seen ++ [f.id]))) = [] := by
      rw [List.flatten_eq_nil_iff]
      intro l hl
      simp only [List.mem_map] at hl
      obtain ⟨n, hn, rfl⟩ := hl
      by_cases hns : n.id ∈ seen
      · rw [if_pos hns]
      · rw [if_neg hns]
        have hnid : n.id ≠ tgt.id := by
          have hmem : n ∈ g.nodes.map Prod.snd := by
            obtain ⟨k, hk, hlk⟩ := List.mem_filterMap.mp (by simpa [succs] using hn)
            exact lookupA_mem_snd g.nodes k n hlk
          simp only [List.mem_map] at hmem
          obtain ⟨p, hp, rfl⟩ := hmem
          exact habs p hp
        rw [ih ⟨n, hn⟩ hns hnid]
        simp
    rw [hflat]
    rfl

/-- Claim C10 (amended): `opsInRange` returns the empty list when `from` is
null; and when `from`'s id is absent from the node map and has no entry in
the downstream index (and differs from `to`'s id), the call returns the
empty list rather than failing.  (As stated the claim fails: an absent
`from` that still has downstream-index entries — which `buildGraphData`
records for foreign dependency keys — produces a nonempty result, see the
counterexample.) -/
theorem opsInRange_null_and_absent :
    (∀ (g : GraphData) (t : GraphNode) (fuel : Nat), opsInRange g none t fuel = some []) ∧
    (∀ (g : GraphData) (f t : GraphNode) (fuel : Nat), 2 ≤ fuel → f.id ≠ t.id →
      (∀ p ∈ g.nodes, p.2.id ≠ f.id) → lookupD g.downstream f.id = [] →
      opsInRange g (some f) t fuel = some []) := by
  constructor
  · intro g t fuel
    rfl
  · intro g f t fuel hfuel hne habs hdown
    rw [opsInRange, if_neg hne]
    have hdir : graphDirectionOfAux g t.id fuel [f] = some Direction.upstream := by
      rcases fuel with _ | m
      · omega
      rw [graphDirectionOfAux]
      have hgl : ([f] : List GraphNode).getLast (List.cons_ne_nil f []) = f := rfl
      have hsucc : succs g f = [] := by
        rw [succs, hdown]
        rfl
      rw [hgl, hsucc]
      rw [if_neg (by simp)]
      rcases m with _ | m2
      · omega
      · rfl
    rw [hdir]
    rw [opsInRangeRec_nil_of_target_absent g f habs t [] (fun h => hne h.symm)]

theorem opsInRange_null_and_absent_witness :
    opsInRange chainG (some nodeX) nodeA 2 = some [] :=
  opsInRange_null_and_absent.2 chainG nodeX nodeA 2 (by decide) (by decide) (by decide) (by decide)

/-- Claim C10 counterexample: `from` absent from the node map, but with a
downstream-index entry for its id (as `buildGraphData` produces for a
foreign dependency key): the call returns a nonempty op-name list, not the
empty result the claim promises. -/
theorem opsInRange_absent_from_nonempty :
    opsInRange foreignEdgeG (some nodeX) nodeA 1 = some ["opX", "opA"] ∧
      some ["opX", "opA"] ≠ some ([] : List String) := by
  constructor
  · rw [opsInRange, if_neg (by decide)]
    have hdir : graphDirectionOfAux foreignEdgeG nodeA.id 1 [nodeX] = some Direction.downstream := by
      decide
    rw [hdir]
    have hbase : opsInRangeRec foreignEdgeG nodeA nodeA ([] ++ [nodeX.id]) = ["opA"] := by
      rw [opsInRangeRec_eq, if_pos rfl]
      decide
    have hsucc : succs foreignEdgeG nodeX = [nodeA] := by decide
    rw [opsInRangeRec_eq, if_neg (by decide), hsucc]
    simp only [List.map_cons, List.map_nil]
    rw [if_neg (by decide), hbase]
    rw [if_neg (by decide)]
    decide
  · decide

/-! ## Linear-chain evaluation (C5) -/

theorem chain_worker_eval :
    opsInRangeRec chainG nodeD nodeA [] = ["opA", "opB", "opC", "opD"] := by
  have hsA : succs chainG nodeA = [nodeB] := by decide
  have hsB : succs chainG nodeB = [nodeC] := by decide
  have hsC : succs chainG nodeC = [nodeD] := by decide
  have h4 : opsInRangeRec chainG nodeD nodeD ((([] ++ [nodeA.id]) ++ [nodeB.id]) ++ [nodeC.id]) =
      ["opD"] := by
    rw [opsInRangeRec_eq, if_pos rfl]
    decide
  have h3 : opsInRangeRec chainG nodeD nodeC (([] ++ [nodeA.id]) ++ [nodeB.id]) =
      ["opC", "opD"] := by
    rw [opsInRangeRec_eq, if_neg (by decide), hsC]
    simp only [List.map_cons, List.map_nil]
    rw [if_neg (by decide), h4, if_neg (by decide)]
    decide
  have h2 : opsInRangeRec chainG nodeD nodeB ([] ++ [nodeA.id]) = ["opB", "opC", "opD"] := by
    rw [opsInRangeRec_eq, if_neg (by decide), hsB]
    simp only [List.map_cons, List.map_nil]
    rw [if_neg (by decide), h3, if_neg (by decide)]
    decide
  rw [opsInRangeRec_eq, if_neg (by decide), hsA]
  simp only [List.map_cons, List.map_nil]
  rw [if_neg (by decide), h2, if_neg (by decide)]
  decide

/-- Claim C5: on the linear chain A→B→C→D, `opsInRange (A, D)` returns the
op names of A, B, C, D in that order with no duplicates, and
`opsInRange (D, A)` — normalized internally by `graphDirectionOf` — returns
the same list (hence the same set).  Any fuel from 4 up lets the embedded
direction search finish. -/
theorem opsInRange_linear_chain (fuel : Nat) (hfuel : 4 ≤ fuel) :
    opsInRange chainG (some nodeA) nodeD fuel = some ["opA", "opB", "opC", "opD"] ∧
      opsInRange chainG (some nodeD) nodeA fuel = some ["opA", "opB", "opC", "opD"] := by
  constructor
  · rw [opsInRange, if_neg (by decide)]
    have hdir : graphDirectionOfAux chainG nodeD.id fuel [nodeA] = some Direction.downstream :=
      graphDirectionOfAux_mono chainG nodeD.id 4 [nodeA] Direction.downstream (by decide) fuel hfuel
    rw [hdir, chain_worker_eval]
  · rw [opsInRange, if_neg (by decide)]
    have hdir : graphDirectionOfAux chainG nodeA.id fuel [nodeD] = some Direction.upstream :=
      graphDirectionOfAux_mono chainG nodeA.id 2 [nodeD] Direction.upstream (by decide) fuel
        (by omega)
    rw [hdir, chain_worker_eval]

theorem opsInRange_linear_chain_witness :
    opsInRange chainG (some nodeA) nodeD 4 = some ["opA", "opB", "opC", "opD"] :=
  (opsInRange_linear_chain 4 (Nat.le_refl 4)).1
